import Mathlib

/-!
Verification of the trigger-evaluation state machine of `backtrader/timer.py`
(class `Timer`: `start`, `_reset_when`, `_check_month`, `_check_week`, `check`).

Shallow embedding conventions:

* A naive `datetime` is its total number of minutes since 0001-01-01 00:00
  (an `Int`); a `date` is its day number since 0001-01-01 (an `Int`).
  `datetime.combine(d, t)` is `1440 * d + t`, `datetime.date()` is Euclidean
  division by 1440, and `TIME_MAX` (23:59:59.999999, the last representable
  time of day) is minute 1439.  Calendar fields (`.month`, `.day`,
  `.isocalendar()`) are computed from the day number with the standard
  proleptic-Gregorian civil-calendar formulas.
* Numeric timestamps (the `float` format of `utils.date2num`) are UTC
  minutes, also `Int`.  `date2num`/`num2date` are not under `src/`;
  they are modelled from the spec (see their doc comments).
* `p.when` is modelled after `start` has resolved it: the field `rstwhen`
  is the resolved `_rstwhen` time of day (the absolute-time case; symbolic
  SESSION_START/SESSION_END resolution queries the external data feed).
* The time source is a plain timezone (`_isdata == False`, the only branch
  whose session-end code is in `src/`): end of session is
  `datetime.combine(ddate, TIME_MAX)` and localization uses a fixed UTC
  offset `tz` in minutes (`tzdata=None` is `tz = 0`).
* `p.offset` and `p.repeat` are durations in minutes; `repeat` is a `Nat`
  because the source's `while True` reschedule loop only terminates for
  nonnegative repeats (Python would loop forever on a negative timedelta).
* The `_lastcall` field holds either the sentinel `datetime.min` (set by
  `_reset_when()` with its default argument) or a real date; in Python a
  `datetime` never compares equal to a `date`, so the sentinel is modelled
  as `none` in an `Option`.
* `_curmonth`/`_curweek` start at `-1` ("non-existent month"), hence `Int`.
* `bisect.bisect_left` / `bisect.bisect_right(..., lo=...)` are modelled by
  their characterization on sorted lists (the documented domain of the
  day filters: ordered sets of day numbers): the number of entries `< x`,
  and `lo` plus the number of entries `≤ x` at or after `lo`.
-/

/-! ## Proleptic Gregorian calendar (views of a day number) -/

/-- Leap year test of the Gregorian calendar. -/
def isLeap (y : Nat) : Bool :=
  (y % 4 == 0 && y % 100 != 0) || y % 400 == 0

/-- Day number since 0001-01-01 of the civil date `(y, m, d)` (valid for
`y ≥ 1`, `1 ≤ m ≤ 12`); the standard era-based civil-calendar formula. -/
def daysOfCivil (y m d : Nat) : Nat :=
  let y' := if m ≤ 2 then y - 1 else y
  let era := y' / 400
  let yoe := y' % 400
  let mp := if 2 < m then m - 3 else m + 9
  let doy := (153 * mp + 2) / 5 + d - 1
  let doe := yoe * 365 + yoe / 4 - yoe / 100 + doy
  era * 146097 + doe - 306

/-- Civil date `(year, month, day)` of a day number since 0001-01-01;
inverse of `daysOfCivil`. -/
def civilOfDays (n : Nat) : Nat × Nat × Nat :=
  let z := n + 306
  let era := z / 146097
  let doe := z % 146097
  let yoe := (doe - doe / 1460 + doe / 36524 - doe / 146096) / 365
  let y := yoe + era * 400
  let doy := doe - (365 * yoe + yoe / 4 - yoe / 100)
  let mp := (5 * doy + 2) / 153
  let d := doy - (153 * mp + 2) / 5 + 1
  let m := if mp < 10 then mp + 3 else mp - 9
  (if m ≤ 2 then y + 1 else y, m, d)

/-- Month (1..12) of a date (`ddate.month`). -/
def monthOf (dd : Int) : Int := ((civilOfDays dd.toNat).2.1 : Int)

/-- Day of month (1..31) of a date (`ddate.day`). -/
def mdayOf (dd : Int) : Nat := (civilOfDays dd.toNat).2.2

/-- ISO weekday (Monday = 1 .. Sunday = 7); 0001-01-01 was a Monday. -/
def isoWeekday (dd : Int) : Nat := dd.toNat % 7 + 1

/-- Number of ISO weeks (52 or 53) in year `y`: 53 iff January 1 falls on a
Thursday, or on a Wednesday in a leap year. -/
def isoWeeksIn (y : Nat) : Nat :=
  let wdJan1 := daysOfCivil y 1 1 % 7 + 1
  if wdJan1 = 4 ∨ (isLeap y ∧ wdJan1 = 3) then 53 else 52

/-- ISO week number of a date (second component of `ddate.isocalendar()`). -/
def isoWeek (dd : Int) : Int :=
  let n := dd.toNat
  let y := (civilOfDays n).1
  let doy := n - daysOfCivil y 1 1 + 1
  let wd := n % 7 + 1
  let w := (doy + 10 - wd) / 7
  ((if w = 0 then isoWeeksIn (y - 1)
    else if w = 53 ∧ isoWeeksIn y = 52 then 1
    else w : Nat) : Int)

/-! ## Minutes model of datetimes and numeric timestamps -/

/-- Minute of day of `utils.TIME_MAX` (23:59:59.999999), the last
representable time of a day. -/
def TIME_MAX : Int := 1439

/-- `datetime.combine(ddate, t)`: minute `t` of day `ddate`. -/
def combine (ddate t : Int) : Int := 1440 * ddate + t

/-- `datetime.date()`: the day number a datetime falls on. -/
def dateOf (dtm : Int) : Int := dtm / 1440

/-- Modelled from the spec: `localize(datetime) -> (timestamp, instant)` of
the time-source interface — `utils.num2date(n, tz)` shifts a UTC numeric
timestamp by the timezone's UTC offset (`tz` minutes; `None` is `0`) to a
naive local datetime. -/
def num2date (tz : Int) (n : Int) : Int := n + tz

/-- Modelled from the spec: `utils.date2num(dtm, tz)` localizes a naive
datetime in the timezone with UTC offset `tz` (`None` is `0`) and converts
it to a UTC numeric timestamp, i.e. subtracts the offset. -/
def date2num (tz : Int) (dtm : Int) : Int := dtm - tz

/-! ## bisect on sorted lists -/

/-- `bisect.bisect_left(a, x)` on a sorted list: number of entries `< x`. -/
def bisect_left (a : List Nat) (x : Nat) : Nat :=
  (a.takeWhile (fun v => decide (v < x))).length

/-- `bisect.bisect_right(a, x, lo=lo)` on a sorted list: `lo` plus the
number of entries `≤ x` at positions `≥ lo`. -/
def bisect_right_lo (a : List Nat) (x : Nat) (lo : Nat) : Nat :=
  lo + ((a.drop lo).takeWhile (fun v => decide (v ≤ x))).length

/-! ## Timer configuration and state -/

/-- The timer parameters after `start` (lines 48-62 and 70-84), for a
plain-timezone time source.  `rstwhen` is the resolved `_rstwhen` time of
day; `rep` is `p.repeat`; `tz` is the UTC offset of `p.tzdata`. -/
structure TParams where
  rstwhen : Int
  offset : Int
  rep : Nat
  weekdays : List Nat
  weekcarry : Bool
  monthdays : List Nat
  monthcarry : Bool
  allow : Option (Int → Bool)
  tz : Int

/-- The mutable evaluation state of one `Timer`.  `twhen` is `_when`;
`lastcall = none` is the `datetime.min` sentinel of `_reset_when()`. -/
structure TState where
  twhen : Int
  dtwhen : Option Int
  dwhen : Option Int
  lastcall : Option Int
  nexteos : Int
  curdate : Int
  curmonth : Int
  monthmask : List Nat
  curweek : Int
  weekmask : List Nat
  lastwhen : Option Int

/-- `Timer._reset_when(ddate)` (lines 95-99): re-arm the target time and
clear the cached trigger instant; `lc = none` models the default
`ddate=datetime.min`. -/
def resetWhen (P : TParams) (st : TState) (lc : Option Int) : TState :=
  { st with twhen := P.rstwhen, dtwhen := none, dwhen := none, lastcall := lc }

/-- `Timer.start` (lines 70-93): initial evaluation state.  `datetime.min`
and `date.min` are minute 0 and day 0; `_curmonth`/`_curweek` start at -1. -/
def Timer.start (P : TParams) : TState :=
  { twhen := P.rstwhen, dtwhen := none, dwhen := none, lastcall := none,
    nexteos := 0, curdate := 0, curmonth := -1, monthmask := [],
    curweek := -1, weekmask := [], lastwhen := none }

/-- `Timer._check_month(ddate)` (lines 101-126) as a function of the fields
it reads and writes: returns the result and the new `(_curmonth,
_monthmask)`. -/
def checkMonth (P : TParams) (curmonth : Int) (monthmask : List Nat)
    (ddate : Int) : Bool × Int × List Nat :=
  if P.monthdays = [] then (true, curmonth, monthmask)
  else
    let dmonth := monthOf ddate
    let init : Bool × Int × List Nat :=
      if dmonth ≠ curmonth then (P.monthcarry && !monthmask.isEmpty, dmonth, P.monthdays)
      else (false, curmonth, monthmask)
    let daycarry := init.1
    let mask := init.2.2
    let dday := mdayOf ddate
    let dc := bisect_left mask dday
    let daycarry := daycarry || (P.monthcarry && decide (0 < dc))
    let cd : Bool × Nat :=
      if dc < mask.length then
        let curday := decide (0 < bisect_right_lo mask dday dc)
        (curday, dc + if curday then 1 else 0)
      else (false, dc)
    (daycarry || cd.1, init.2.1, mask.drop cd.2)

/-- `Timer._check_week(ddate)` (lines 128-153): same algorithm keyed by the
ISO week number and weekday. -/
def checkWeek (P : TParams) (curweek : Int) (weekmask : List Nat)
    (ddate : Int) : Bool × Int × List Nat :=
  if P.weekdays = [] then (true, curweek, weekmask)
  else
    let dweek := isoWeek ddate
    let init : Bool × Int × List Nat :=
      if dweek ≠ curweek then (P.weekcarry && !weekmask.isEmpty, dweek, P.weekdays)
      else (false, curweek, weekmask)
    let daycarry := init.1
    let mask := init.2.2
    let dwkday := isoWeekday ddate
    let dc := bisect_left mask dwkday
    let daycarry := daycarry || (P.weekcarry && decide (0 < dc))
    let cd : Bool × Nat :=
      if dc < mask.length then
        let curday := decide (0 < bisect_right_lo mask dwkday dc)
        (curday, dc + if curday then 1 else 0)
      else (false, dc)
    (daycarry || cd.1, init.2.1, mask.drop cd.2)

/-- Lines 161-167 of `check`: session rollover.  With a plain-timezone time
source the generic end of session is `datetime.combine(ddate, TIME_MAX)`;
passing it re-arms the timer via `_reset_when()` (sentinel `_lastcall`). -/
def eosStep (P : TParams) (st : TState) (d ddate : Int) : TState :=
  if st.nexteos < d then
    resetWhen P { st with nexteos := combine ddate TIME_MAX } none
  else st

/-- Lines 169-176 of `check`: date rollover.  Advance `_curdate`, then
evaluate the month-day filter, the week-day filter (only if the former
passed) and the `allow` predicate (only if both passed). -/
def dayStep (P : TParams) (st : TState) (ddate : Int) : Bool × TState :=
  let st := { st with curdate := ddate }
  let m := checkMonth P st.curmonth st.monthmask ddate
  let st := { st with curmonth := m.2.1, monthmask := m.2.2 }
  if m.1 then
    let w := checkWeek P st.curweek st.weekmask ddate
    let st := { st with curweek := w.2.1, weekmask := w.2.2 }
    if w.1 then
      match P.allow with
      | some f => (f ddate, st)
      | none => (true, st)
    else (false, st)
  else (false, st)

/-- The `while True` reschedule loop of lines 214-228, with explicit fuel
(the source loop terminates because `repeat` is a positive duration; the
callers pass fuel that is never exhausted for positive `rep`).  `none`
models the `dwhen > nexteos` exit (give up for the day), `some w` the
`dwhen > d` exit (cache the next repeat target `w`). -/
def repeatLoop (rep : Nat) (nexteos d : Int) : Nat → Int → Option Int
  | 0, _ => none
  | fuel + 1, dw =>
    let dw := dw + rep
    if nexteos < dw then none
    else if d < dw then some dw
    else repeatLoop rep nexteos d fuel dw

/-- Lines 214-228 of `check`: run the reschedule loop from the just-fired
target.  On the `dwhen > nexteos` exit give up for the day
(`_reset_when(ddate)`); on the `dwhen > d` exit cache the next target, its
numeric form via `date2num` with no timezone and its localized form via
`num2date` with the configured timezone. -/
def fireRepeat (P : TParams) (st : TState) (d ddate dw : Int) : Bool × TState :=
  match repeatLoop P.rep st.nexteos d ((min st.nexteos d - dw).toNat + 1) dw with
  | none => (true, resetWhen P st (some ddate))
  | some w =>
    (true, { st with dtwhen := some (date2num 0 w),
                     dwhen := some (num2date P.tz (date2num 0 w)) })

/-- Lines 199-230 of `check`: record `lastwhen`, then either mark the date
called (`repeat == 0`, lines 201-202), or refresh the session end if the
sample passed it (lines 204-212) and advance the target by `repeat`
(`fireRepeat`). -/
def fireStep (P : TParams) (st : TState) (d ddate : Int) (dw : Int) :
    Bool × TState :=
  if P.rep = 0 then (true, resetWhen P { st with lastwhen := some dw } (some ddate))
  else
    fireRepeat P
      { st with lastwhen := some dw,
                nexteos := if st.nexteos < d then combine ddate TIME_MAX
                           else st.nexteos }
      d ddate dw

/-- Lines 182-198 of `check`: resolve and cache the trigger instant for the
current date if absent (`combine` the date with `_when`, add the offset,
localize via `date2num` with the configured timezone), then fire iff the
sampled timestamp has reached the numeric trigger.  The source adds the
offset only when the timedelta is truthy (nonzero, lines 186-187); adding a
zero offset is the identity, so the embedding adds it unconditionally. -/
def checkAfterDay (P : TParams) (st : TState) (dt d ddate : Int) :
    Bool × TState :=
  match st.dtwhen with
  | some dtw =>
    if dt < dtw then (false, st)
    else fireStep P st d ddate (st.dwhen.getD 0)
  | none =>
    if dt < date2num P.tz (combine ddate st.twhen + P.offset) then
      (false, { st with
                  dwhen := some (combine ddate st.twhen + P.offset),
                  dtwhen := some (date2num P.tz (combine ddate st.twhen + P.offset)) })
    else
      fireStep P
        { st with
            dwhen := some (combine ddate st.twhen + P.offset),
            dtwhen := some (date2num P.tz (combine ddate st.twhen + P.offset)) }
        d ddate (combine ddate st.twhen + P.offset)

/-- `Timer.check(dt)` (lines 155-230) for a plain-timezone time source:
the complete per-sample evaluation, returning the fired flag and the new
state. -/
def Timer.check (P : TParams) (st : TState) (dt : Int) : Bool × TState :=
  let d := num2date 0 dt
  let ddate := dateOf d
  if st.lastcall = some ddate then (false, st)
  else
    let st := eosStep P st d ddate
    if st.curdate < ddate then
      match dayStep P st ddate with
      | (true, st) => checkAfterDay P st dt d ddate
      | (false, st) => (false, resetWhen P st (some ddate))
    else checkAfterDay P st dt d ddate

/-! ## Driving loops: folding `check` over a sample sequence -/

/-- The state after feeding a list of numeric timestamps through `check`. -/
def runChecks (P : TParams) : TState → List Int → TState
  | st, [] => st
  | st, dt :: ts => runChecks P (Timer.check P st dt).2 ts

/-- The list of results of feeding a list of timestamps through `check`. -/
def resultsList (P : TParams) : TState → List Int → List Bool
  | _, [] => []
  | st, dt :: ts =>
    (Timer.check P st dt).1 :: resultsList P (Timer.check P st dt).2 ts

/-- The fired instants of a run: the value recorded as `lastwhen` by each
call that returns true. -/
def firedInstants (P : TParams) : TState → List Int → List Int
  | _, [] => []
  | st, dt :: ts =>
    match Timer.check P st dt with
    | (b, st') =>
      (if b then [st'.lastwhen.getD 0] else []) ++ firedInstants P st' ts

/-- States reachable from `Timer.start` by a non-decreasing sequence of
nonnegative samples; `Run P st t` carries the largest sample fed so far
(`t = 0` before any sample). -/
inductive Run (P : TParams) : TState → Int → Prop where
  | init : Run P (Timer.start P) 0
  | step {st t dt} : Run P st t → t ≤ dt → Run P (Timer.check P st dt).2 dt

/-- Order on `_lastcall` values, with the `datetime.min` sentinel (`none`)
as the least element. -/
def lcLeB (x y : Option Int) : Bool :=
  match x, y with
  | none, _ => true
  | some _, none => false
  | some a, some b => decide (a ≤ b)

/-- The day-filter portion of the evaluation state: `_curdate` and the two
period keys and masks.  Only the date-rollover branch of `check` (via
`dayStep`) ever changes it. -/
def FilterState (s : TState) : Int × Int × List Nat × Int × List Nat :=
  (s.curdate, s.curmonth, s.monthmask, s.curweek, s.weekmask)

/-- Run invariant for repeat scheduling on a single date `D` with a
zero-offset (UTC) time source: the target time of day stays `rstwhen`, the
cached session end never passes the end of `D`, the numeric and localized
cached triggers coincide, and any cached trigger is `target + k·repeat`
for some `k`, within the session unless it is the fresh (`k = 0`) target. -/
def InvC1 (P : TParams) (D : Int) (st : TState) : Prop :=
  st.twhen = P.rstwhen ∧
  st.nexteos ≤ combine D TIME_MAX ∧
  st.dtwhen = st.dwhen ∧
  (∀ w, st.dwhen = some w →
    ∃ k : Nat, w = combine D P.rstwhen + P.offset + (k : Int) * P.rep ∧
      (k = 0 ∨ w ≤ combine D TIME_MAX))

/-! ## Concrete configurations used by counterexamples and witnesses -/

/-- Target 09:00, no offset, repeat 899 minutes, no filters, UTC. -/
def Pc1 : TParams := ⟨540, 0, 899, [], false, [], true, none, 0⟩

/-- Target 09:00, no offset, repeat 60 minutes, no filters, UTC. -/
def Pc1b : TParams := ⟨540, 0, 60, [], false, [], true, none, 0⟩

/-- `monthdays=[5,15,25]`, `monthcarry=True`, no other filters. -/
def Pc2 : TParams := ⟨540, 0, 0, [], false, [5, 15, 25], true, none, 0⟩

/-- `monthdays=[5,15,25]`, `monthcarry=False`, no other filters. -/
def Pc3 : TParams := ⟨540, 0, 0, [], false, [5, 15, 25], false, none, 0⟩

/-- Target 09:00, no offset, no repeat, no filters, UTC. -/
def Pc5 : TParams := ⟨540, 0, 0, [], false, [], true, none, 0⟩

/-- Target 09:00, offset 30 minutes, no repeat, no filters, UTC. -/
def Pc8 : TParams := ⟨540, 30, 0, [], false, [], true, none, 0⟩

/-- `monthdays=[20]`, `monthcarry=False`, no other filters, UTC. -/
def Pc7 : TParams := ⟨540, 0, 0, [], false, [20], false, none, 0⟩

/-- No day filters, allow predicate vetoing exactly day 5, UTC. -/
def Pc6 : TParams :=
  ⟨540, 0, 0, [], false, [], true, some (fun d => decide (d ≠ 5)), 0⟩

/-- Target 09:00, no offset, repeat 60, no filters, UTC offset +60. -/
def Pc10 : TParams := ⟨540, 0, 60, [], false, [], true, none, 60⟩

/-- Day number of 2020-01-10 (`date(2020, 1, 10).toordinal() - 1`). -/
def day20200110 : Int := 737433

/-- Day number of 2020-01-15. -/
def day20200115 : Int := 737438

/-! ## Basic lemmas about the minutes model -/

@[simp] theorem num2date_zero (n : Int) : num2date 0 n = n := by
  unfold num2date; omega

@[simp] theorem date2num_zero (n : Int) : date2num 0 n = n := by
  unfold date2num; omega

theorem dateOf_eq_iff {t D : Int} :
    dateOf t = D ↔ 1440 * D ≤ t ∧ t ≤ 1440 * D + 1439 := by
  unfold dateOf; omega

theorem dateOf_mono {t u : Int} (h : t ≤ u) : dateOf t ≤ dateOf u := by
  unfold dateOf; omega

theorem dateOf_combine {D t : Int} (h0 : 0 ≤ t) (h1 : t ≤ 1439) :
    dateOf (combine D t) = D := by
  unfold dateOf combine; omega

theorem le_eos_of_dateOf {t D : Int} (h : dateOf t = D) :
    t ≤ combine D TIME_MAX := by
  unfold combine TIME_MAX; unfold dateOf at h; omega

theorem combine_le_of_dateOf {t D : Int} (h : dateOf t = D) :
    combine D 0 ≤ t := by
  unfold combine; unfold dateOf at h; omega

/-! ## Lemmas about the reschedule loop -/

/-- Any cached repeat target returned by the loop is within the session,
strictly past the sampled datetime, and a positive number of repeat steps
after the starting target. -/
theorem repeatLoop_some {rep : Nat} {ne d : Int} :
    ∀ {fuel : Nat} {dw w : Int}, repeatLoop rep ne d fuel dw = some w →
      w ≤ ne ∧ d < w ∧ ∃ k : Nat, 1 ≤ k ∧ w = dw + (k : Int) * rep := by
  intro fuel
  induction fuel with
  | zero => intro dw w h; simp [repeatLoop] at h
  | succ n ih =>
    intro dw w h
    rw [repeatLoop] at h
    by_cases h1 : ne < dw + rep
    · simp [h1] at h
    · by_cases h2 : d < dw + rep
      · simp [h1, h2] at h
        refine ⟨by omega, by omega, 1, le_refl 1, by omega⟩
      · simp [h1, h2] at h
        obtain ⟨hw1, hw2, k, hk, hkw⟩ := ih h
        exact ⟨hw1, hw2, k + 1, by omega, by push_cast [hkw]; ring⟩

/-- C1, counterexample.  With `repeat = 899` and target 09:00 on day
737000, the session ends at `E = combine 737000 TIME_MAX`; sampling at
09:00 and at 23:59 fires at 09:00 and again at the instant `E` itself, so
an instant `≥ E` does fire.  With `repeat = 60` and a single sample at
09:00, only 09:00 fires although `09:00 + 60min < E` is in the claimed
arithmetic sequence, so the fired set is not *exactly* the truncated
sequence. -/
theorem timer_c1_counterexample :
    firedInstants Pc1 (Timer.start Pc1) [combine 737000 540, combine 737000 1439]
      = [combine 737000 540, combine 737000 TIME_MAX] ∧
    combine 737000 TIME_MAX
      ∈ firedInstants Pc1 (Timer.start Pc1) [combine 737000 540, combine 737000 1439] ∧
    firedInstants Pc1b (Timer.start Pc1b) [combine 737000 540]
      = [combine 737000 540] ∧
    combine 737000 540 + 60 < combine 737000 TIME_MAX ∧
    combine 737000 540 + 60
      ∉ firedInstants Pc1b (Timer.start Pc1b) [combine 737000 540] := by
  decide

/-- C2: evaluation of `_check_month` at the claim's scenario.  With
`monthdays=[5,15,25]`, carry enabled, and the first evaluation of the month
on 2020-01-10, the code returns true (the carry for day 5) but pops *two*
entries, leaving the mask `[25]` instead of the claimed `[15, 25]` — the
membership test `bisect_right(mask, dday, lo=dc) > 0` is true whenever
`dc > 0`, so day 15 is consumed as a spurious match and a later check on
2020-01-15 returns false. -/
theorem timer_c2_code_eval :
    checkMonth Pc2 (-1) [] day20200110 = (true, 1, [25]) ∧
    (checkMonth Pc2 1 [25] day20200115).1 = false := by
  decide

/-- C3: evaluation of `_check_month` at the claim's scenario.  With
`monthdays=[5,15,25]` and carry *disabled*, the first evaluation of the
month on 2020-01-10 returns true, not false as the claim (and the code's
own `# check dday` comment) require: `bisect_right(mask, 10, lo=1) = 1 > 0`
although 10 is not in the filter. -/
theorem timer_c3_code_eval :
    checkMonth Pc3 (-1) [] day20200110 = (true, 1, [25]) := by
  decide

/-- C5, counterexample.  A non-repeating fire on day 5 sets `_lastcall` to
day 5; the first early sample of day 6 passes the session end, and
`_reset_when()` moves `_lastcall` back to the `datetime.min` sentinel
(`none`), which is strictly below any real date — `_lastcall` moved
backward. -/
theorem timer_c5_counterexample :
    (runChecks Pc5 (Timer.start Pc5) [combine 5 600]).lastcall = some 5 ∧
    (runChecks Pc5 (Timer.start Pc5) [combine 5 600, combine 6 100]).lastcall
      = none ∧
    lcLeB (some 5) none = false := by
  decide

/-- C10, counterexample.  With UTC offset +60 and `repeat = 60`, a fire at
the first target reschedules to the wall-clock datetime
`combine 500 540 + 60`; the cached numeric timestamp is `date2num` of it
*without* a timezone (line 221), which differs from the `date2num` with the
configured timezone that the initial resolution path (line 194) would
produce for the same wall-clock datetime. -/
theorem timer_c10_counterexample :
    (runChecks Pc10 (Timer.start Pc10) [combine 500 540 - 60]).dtwhen
      = some (date2num 0 (combine 500 540 + 60)) ∧
    (runChecks Pc10 (Timer.start Pc10) [combine 500 540 - 60]).dtwhen
      ≠ some (date2num Pc10.tz (combine 500 540 + 60)) := by
  decide

/-- C10, amended: the numeric timestamp cached by the repeat-reschedule
path (`date2num` with no timezone) agrees with the one the initial
target-resolution path computes (`date2num` with the configured timezone)
exactly when the configured UTC offset is zero (`tzdata=None` or UTC). -/
theorem timer_c10_amended (tz w : Int) :
    date2num 0 w = date2num tz w ↔ tz = 0 := by
  unfold date2num; omega

/-! ## Stage lemmas about `Timer.check` -/

/-- A call whose date equals `_lastcall` returns false without touching the
state (line 158). -/
theorem check_guard {P : TParams} {st : TState} {dt : Int}
    (h : st.lastcall = some (dateOf dt)) : Timer.check P st dt = (false, st) := by
  unfold Timer.check
  simp [h]

theorem eosStep_lastcall (P : TParams) (st : TState) (d ddate : Int) :
    (eosStep P st d ddate).lastcall = st.lastcall ∨
    (eosStep P st d ddate).lastcall = none := by
  unfold eosStep resetWhen
  split <;> simp

theorem eosStep_nexteos_ge {P : TParams} {st : TState} {d ddate : Int}
    (hd : dateOf d = ddate) : d ≤ (eosStep P st d ddate).nexteos := by
  unfold eosStep resetWhen
  split
  · simpa using le_eos_of_dateOf hd
  · omega

theorem eosStep_other (P : TParams) (st : TState) (d ddate : Int) :
    (eosStep P st d ddate).curdate = st.curdate ∧
    (eosStep P st d ddate).curmonth = st.curmonth ∧
    (eosStep P st d ddate).monthmask = st.monthmask ∧
    (eosStep P st d ddate).curweek = st.curweek ∧
    (eosStep P st d ddate).weekmask = st.weekmask ∧
    (eosStep P st d ddate).lastwhen = st.lastwhen := by
  unfold eosStep resetWhen
  split <;> simp

theorem eosStep_twhen (P : TParams) (st : TState) (d ddate : Int)
    (h : st.twhen = P.rstwhen) : (eosStep P st d ddate).twhen = P.rstwhen := by
  unfold eosStep resetWhen
  split <;> simp [h]

theorem dayStep_fields (P : TParams) (st : TState) (ddate : Int) :
    (dayStep P st ddate).2.twhen = st.twhen ∧
    (dayStep P st ddate).2.dtwhen = st.dtwhen ∧
    (dayStep P st ddate).2.dwhen = st.dwhen ∧
    (dayStep P st ddate).2.lastcall = st.lastcall ∧
    (dayStep P st ddate).2.nexteos = st.nexteos ∧
    (dayStep P st ddate).2.curdate = ddate ∧
    (dayStep P st ddate).2.lastwhen = st.lastwhen := by
  unfold dayStep
  by_cases hm : (checkMonth P st.curmonth st.monthmask ddate).1
  · by_cases hw : (checkWeek P st.curweek st.weekmask ddate).1
    · cases ha : P.allow <;> simp [hm, hw, ha]
    · simp [hm, hw]
  · simp [hm]

theorem fireRepeat_true (P : TParams) (st : TState) (d ddate dw : Int) :
    (fireRepeat P st d ddate dw).1 = true := by
  unfold fireRepeat
  split <;> rfl

theorem fireRepeat_state (P : TParams) (st : TState) (d ddate dw : Int) :
    (fireRepeat P st d ddate dw).2.lastcall = some ddate ∨
    (∃ w, (fireRepeat P st d ddate dw).2.dtwhen = some w ∧ d < w ∧
      (fireRepeat P st d ddate dw).2.lastcall = st.lastcall ∧
      (fireRepeat P st d ddate dw).2.curdate = st.curdate ∧
      (fireRepeat P st d ddate dw).2.nexteos = st.nexteos) := by
  unfold fireRepeat
  cases hloop : repeatLoop P.rep st.nexteos d ((min st.nexteos d - dw).toNat + 1) dw with
  | none => left; simp [resetWhen]
  | some w =>
    right
    obtain ⟨hw1, hw2, _⟩ := repeatLoop_some hloop
    exact ⟨w, by simp, hw2, by simp, by simp, by simp⟩

/-- Every exit of the fire step reports a fire. -/
theorem fireStep_true (P : TParams) (st : TState) (d ddate dw : Int) :
    (fireStep P st d ddate dw).1 = true := by
  unfold fireStep
  split
  · rfl
  · exact fireRepeat_true ..

/-- After a fire, either the date is marked called, or a strictly later
repeat target is cached and the session end is at or after the sample. -/
theorem fireStep_state (P : TParams) (st : TState) {d ddate : Int} (dw : Int)
    (hd : dateOf d = ddate) :
    (fireStep P st d ddate dw).2.lastcall = some ddate ∨
    (P.rep ≠ 0 ∧ ∃ w, (fireStep P st d ddate dw).2.dtwhen = some w ∧ d < w ∧
      (fireStep P st d ddate dw).2.lastcall = st.lastcall ∧
      (fireStep P st d ddate dw).2.curdate = st.curdate ∧
      d ≤ (fireStep P st d ddate dw).2.nexteos) := by
  unfold fireStep
  split
  · left; simp [resetWhen]
  · rcases fireRepeat_state P
        { st with lastwhen := some dw,
                  nexteos := if st.nexteos < d then combine ddate TIME_MAX
                             else st.nexteos }
        d ddate dw with h | ⟨w, h1, h2, h3, h4, h5⟩
    · left; exact h
    · right
      rename_i hrep
      refine ⟨hrep, w, h1, h2, h3, h4, ?_⟩
      rw [h5]
      simp only
      split
      · simpa using le_eos_of_dateOf hd
      · omega

/-- A firing call through `checkAfterDay` either marks the date called or
caches a repeat target strictly past the sample, leaving `_lastcall` and
`_curdate` alone and the session end at or after the sample. -/
theorem checkAfterDay_state (P : TParams) (st : TState) {dt d ddate : Int}
    (hd : dateOf d = ddate)
    (h : (checkAfterDay P st dt d ddate).1 = true) :
    (checkAfterDay P st dt d ddate).2.lastcall = some ddate ∨
    (P.rep ≠ 0 ∧ ∃ w, (checkAfterDay P st dt d ddate).2.dtwhen = some w ∧ d < w ∧
      (checkAfterDay P st dt d ddate).2.lastcall = st.lastcall ∧
      (checkAfterDay P st dt d ddate).2.curdate = st.curdate ∧
      d ≤ (checkAfterDay P st dt d ddate).2.nexteos) := by
  cases hdtw : st.dtwhen with
  | some dtw =>
    unfold checkAfterDay at h ⊢
    rw [hdtw] at h ⊢
    dsimp only at h ⊢
    by_cases hlt : dt < dtw
    · simp [hlt] at h
    · simp only [if_neg hlt] at h ⊢
      exact fireStep_state P st _ hd
  | none =>
    unfold checkAfterDay at h ⊢
    rw [hdtw] at h ⊢
    dsimp only at h ⊢
    by_cases hlt : dt < date2num P.tz (combine ddate st.twhen + P.offset)
    · simp [hlt] at h
    · simp only [if_neg hlt] at h ⊢
      rcases fireStep_state P
          { st with
              dwhen := some (combine ddate st.twhen + P.offset),
              dtwhen := some (date2num P.tz (combine ddate st.twhen + P.offset)) }
          (combine ddate st.twhen + P.offset) hd with h1 | ⟨w, h1, h2, h3, h4, h5⟩
      · exact Or.inl h1
      · exact Or.inr ⟨w, h1, h2, h3, h4, h5⟩

/-- After a call that fires, either the date is marked in `_lastcall`, or a
repeat target strictly past the sample is cached, `_lastcall` still differs
from the sample's date, `_curdate` has reached it, and `_nexteos` has not
been passed. -/
theorem check_true_state (P : TParams) (st : TState) (dt : Int)
    (h : (Timer.check P st dt).1 = true) :
    (Timer.check P st dt).2.lastcall = some (dateOf dt) ∨
    (P.rep ≠ 0 ∧ ∃ w, (Timer.check P st dt).2.dtwhen = some w ∧ dt < w ∧
      (Timer.check P st dt).2.lastcall ≠ some (dateOf dt) ∧
      dateOf dt ≤ (Timer.check P st dt).2.curdate ∧
      dt ≤ (Timer.check P st dt).2.nexteos) := by
  by_cases hg : st.lastcall = some (dateOf dt)
  · rw [check_guard hg] at h
    simp at h
  · unfold Timer.check at h ⊢
    simp only [num2date_zero] at h ⊢
    rw [if_neg hg] at h ⊢
    have hlc1 : (eosStep P st dt (dateOf dt)).lastcall ≠ some (dateOf dt) := by
      rcases eosStep_lastcall P st dt (dateOf dt) with he | he <;> simp [he, hg]
    by_cases hday : (eosStep P st dt (dateOf dt)).curdate < dateOf dt
    · rw [if_pos hday] at h ⊢
      rcases hds : dayStep P (eosStep P st dt (dateOf dt)) (dateOf dt) with ⟨b, st2⟩
      try rw [hds] at h
      try rw [hds]
      cases b
      · dsimp only at h
        simp at h
      · dsimp only at h ⊢
        have hf := dayStep_fields P (eosStep P st dt (dateOf dt)) (dateOf dt)
        rw [hds] at hf
        dsimp only at hf
        rcases checkAfterDay_state P st2 rfl h with h1 | ⟨hrep, w, h1, h2, h3, h4, h5⟩
        · exact Or.inl h1
        · refine Or.inr ⟨hrep, w, h1, h2, ?_, ?_, h5⟩
          · rw [h3, hf.2.2.2.1]
            exact hlc1
          · rw [h4, hf.2.2.2.2.2.1]
    · rw [if_neg hday] at h ⊢
      rcases checkAfterDay_state P (eosStep P st dt (dateOf dt)) rfl h
          with h1 | ⟨hrep, w, h1, h2, h3, h4, h5⟩
      · exact Or.inl h1
      · refine Or.inr ⟨hrep, w, h1, h2, ?_, by omega, h5⟩
        rw [h3]
        exact hlc1

/-- C9: calling `check` twice with the same timestamp immediately after a
fire returns false the second time — the non-repeat and loop-give-up paths
mark `_lastcall` with the date (the line-158 guard), and the repeat path
caches a trigger strictly past the sample. -/
theorem timer_c9 (P : TParams) (st : TState) (dt : Int)
    (h : (Timer.check P st dt).1 = true) :
    (Timer.check P (Timer.check P st dt).2 dt).1 = false := by
  rcases check_true_state P st dt h with h1 | ⟨_, w, h1, h2, h3, h4, h5⟩
  · rw [check_guard h1]
  · set st1 := (Timer.check P st dt).2 with hst1
    unfold Timer.check
    simp only [num2date_zero]
    rw [if_neg h3]
    have heos : eosStep P st1 dt (dateOf dt) = st1 := by
      unfold eosStep
      rw [if_neg (by omega)]
    rw [heos, if_neg (by omega)]
    unfold checkAfterDay
    rw [h1]
    simp [h2]

/-- C9, witness: a concrete fire (repeat 60 minutes, target 09:00, sample
at 09:00 of day 737000) after which re-sampling the same timestamp returns
false. -/
theorem timer_c9_witness :
    (Timer.check Pc1b (Timer.start Pc1b) (combine 737000 540)).1 = true ∧
    (Timer.check Pc1b
      (Timer.check Pc1b (Timer.start Pc1b) (combine 737000 540)).2
      (combine 737000 540)).1 = false :=
  ⟨by decide, timer_c9 Pc1b (Timer.start Pc1b) (combine 737000 540) (by decide)⟩

/-- With `repeat == 0`, a firing call marks its date in `_lastcall`
(line 202). -/
theorem check_rep0_lastcall (P : TParams) (st : TState) (dt : Int)
    (hrep : P.rep = 0) (h : (Timer.check P st dt).1 = true) :
    (Timer.check P st dt).2.lastcall = some (dateOf dt) := by
  rcases check_true_state P st dt h with h1 | ⟨hr, _⟩
  · exact h1
  · exact absurd hrep hr

/-- Once `_lastcall` holds the common date of the samples, every further
call on that date returns false (the line-158 guard) and leaves the state
unchanged. -/
theorem resultsList_count_zero (P : TParams) (D : Int) :
    ∀ (l : List Int) (st : TState), st.lastcall = some D →
      (∀ t ∈ l, dateOf t = D) → (resultsList P st l).count true = 0 := by
  intro l
  induction l with
  | nil =>
    intro st _ _
    simp [resultsList]
  | cons a l ih =>
    intro st hlc hD
    have hda : dateOf a = D := hD a (by simp)
    have hcg : Timer.check P st a = (false, st) :=
      check_guard (by rw [hda]; exact hlc)
    rw [resultsList, hcg]
    have h0 := ih st hlc (fun t ht => hD t (by simp [ht]))
    simp [List.count_cons, h0]

/-- C4: with `repeat = 0`, over any sequence of samples all falling on one
calendar date, `check` returns true at most once — the first fire marks
`_lastcall` with the date, and the guard rejects every later sample of
that date. -/
theorem timer_c4 (P : TParams) (st : TState) (D : Int) (ts : List Int)
    (hrep : P.rep = 0) (hD : ∀ t ∈ ts, dateOf t = D) :
    (resultsList P st ts).count true ≤ 1 := by
  induction ts generalizing st with
  | nil => simp [resultsList]
  | cons a l ih =>
    rw [resultsList]
    by_cases hb : (Timer.check P st a).1 = true
    · have hda : dateOf a = D := hD a (by simp)
      have hlc : (Timer.check P st a).2.lastcall = some D := by
        rw [← hda]
        exact check_rep0_lastcall P st a hrep hb
      have h0 := resultsList_count_zero P D l (Timer.check P st a).2 hlc
        (fun t ht => hD t (by simp [ht]))
      simp [List.count_cons, h0, hb]
    · have h1 := ih (Timer.check P st a).2 (fun t ht => hD t (by simp [ht]))
      simp only [Bool.not_eq_true] at hb
      simp [List.count_cons, hb]
      omega

/-- C4, witness: three samples of day 5 through a non-repeating timer with
target 09:00 fire exactly once. -/
theorem timer_c4_witness :
    (∀ t ∈ [combine 5 600, combine 5 700, combine 5 800], dateOf t = 5) ∧
    (resultsList Pc5 (Timer.start Pc5)
        [combine 5 600, combine 5 700, combine 5 800]).count true ≤ 1 :=
  ⟨by decide,
   timer_c4 Pc5 (Timer.start Pc5) 5 [combine 5 600, combine 5 700, combine 5 800]
     rfl (by decide)⟩

theorem eosStep_dtwhen_none {P : TParams} {st : TState} {d ddate : Int}
    (h : st.dtwhen = none) : (eosStep P st d ddate).dtwhen = none := by
  unfold eosStep resetWhen
  split <;> simp [h]

/-- With no day filters and no allow predicate, a date rollover always
passes and only advances `_curdate`. -/
theorem dayStep_pass (P : TParams) (st : TState) (ddate : Int)
    (hm : P.monthdays = []) (hw : P.weekdays = []) (ha : P.allow = none) :
    dayStep P st ddate = (true, { st with curdate := ddate }) := by
  unfold dayStep checkMonth checkWeek
  rw [hm, hw, ha]
  simp

/-- A call that has to resolve the trigger instant afresh fires iff the
sample has reached `date2num P.tz (combine ddate _when + offset)`, and on a
non-firing call caches exactly that instant and its localized form. -/
theorem checkAfterDay_fresh (P : TParams) (st : TState) (dt d ddate : Int)
    (hdtw : st.dtwhen = none) :
    (checkAfterDay P st dt d ddate).1
      = decide (date2num P.tz (combine ddate st.twhen + P.offset) ≤ dt) ∧
    ((checkAfterDay P st dt d ddate).1 = false →
      (checkAfterDay P st dt d ddate).2
        = { st with
              dwhen := some (combine ddate st.twhen + P.offset),
              dtwhen := some (date2num P.tz (combine ddate st.twhen + P.offset)) }) := by
  unfold checkAfterDay
  rw [hdtw]
  dsimp only
  by_cases hlt : dt < date2num P.tz (combine ddate st.twhen + P.offset)
  · rw [if_pos hlt]
    refine ⟨by simp; omega, fun _ => rfl⟩
  · rw [if_neg hlt]
    refine ⟨by rw [fireStep_true]; simp; omega, fun hf => ?_⟩
    rw [fireStep_true] at hf
    simp at hf

/-- C8: with absolute target 09:00 (540) and offset 30 minutes, on a date
with no cached trigger and all filters passing trivially, a call fires iff
the localized sample time has reached 09:30 (minute 570) of the date, and a
non-firing call caches exactly the localization of
`combine(date, targetTime) + offset`. -/
theorem timer_c8 (P : TParams) (st : TState) (dt D : Int)
    (hm : P.monthdays = []) (hw : P.weekdays = []) (ha : P.allow = none)
    (hwhen : P.rstwhen = 540) (hoff : P.offset = 30)
    (hst : st.twhen = P.rstwhen) (hdtw : st.dtwhen = none)
    (hg : st.lastcall ≠ some D) (hD : dateOf dt = D) :
    ((Timer.check P st dt).1 = true ↔ combine D 570 ≤ num2date P.tz dt) ∧
    ((Timer.check P st dt).1 = false →
      (Timer.check P st dt).2.dwhen = some (combine D P.rstwhen + P.offset) ∧
      (Timer.check P st dt).2.dtwhen
        = some (date2num P.tz (combine D P.rstwhen + P.offset))) := by
  unfold Timer.check
  simp only [num2date_zero]
  rw [hD, if_neg hg]
  have ht1 : (eosStep P st dt D).twhen = P.rstwhen := eosStep_twhen P st dt D hst
  have hn1 : (eosStep P st dt D).dtwhen = none := eosStep_dtwhen_none hdtw
  by_cases hday : (eosStep P st dt D).curdate < D
  · rw [if_pos hday, dayStep_pass P _ D hm hw ha]
    dsimp only
    have hfresh := checkAfterDay_fresh P
      { eosStep P st dt D with curdate := D } dt dt D (by simpa using hn1)
    refine ⟨?_, fun hf => ?_⟩
    · rw [hfresh.1]
      try dsimp only
      rw [ht1, hwhen, hoff]
      unfold combine date2num num2date
      simp only [decide_eq_true_eq]
      constructor <;> intro <;> omega
    · rw [hfresh.2 hf]
      try dsimp only
      rw [ht1]
      exact ⟨rfl, rfl⟩
  · rw [if_neg hday]
    have hfresh := checkAfterDay_fresh P (eosStep P st dt D) dt dt D hn1
    refine ⟨?_, fun hf => ?_⟩
    · rw [hfresh.1]
      try dsimp only
      rw [ht1, hwhen, hoff]
      unfold combine date2num num2date
      simp only [decide_eq_true_eq]
      constructor <;> intro <;> omega
    · rw [hfresh.2 hf]
      try dsimp only
      rw [ht1]
      exact ⟨rfl, rfl⟩

/-- C8, witness: with UTC time source and target 09:00 + 30 minutes on day
737000, a sample at 09:29 does not fire and caches the 09:30 trigger; the
iff is exercised on both sides through the theorem. -/
theorem timer_c8_witness :
    ((Timer.check Pc8 (Timer.start Pc8) (combine 737000 569)).1 = true ↔
      combine 737000 570 ≤ num2date Pc8.tz (combine 737000 569)) ∧
    ((Timer.check Pc8 (Timer.start Pc8) (combine 737000 569)).1 = false →
      (Timer.check Pc8 (Timer.start Pc8) (combine 737000 569)).2.dwhen
        = some (combine 737000 Pc8.rstwhen + Pc8.offset) ∧
      (Timer.check Pc8 (Timer.start Pc8) (combine 737000 569)).2.dtwhen
        = some (date2num Pc8.tz (combine 737000 Pc8.rstwhen + Pc8.offset))) :=
  timer_c8 Pc8 (Timer.start Pc8) (combine 737000 569) 737000
    rfl rfl rfl rfl rfl rfl rfl (by decide) (by decide)

theorem resetWhen_filterState (P : TParams) (st : TState) (lc : Option Int) :
    FilterState (resetWhen P st lc) = FilterState st := by
  unfold resetWhen FilterState
  rfl

theorem eosStep_filterState (P : TParams) (st : TState) (d ddate : Int) :
    FilterState (eosStep P st d ddate) = FilterState st := by
  unfold eosStep resetWhen FilterState
  split <;> rfl

theorem fireRepeat_filterState (P : TParams) (st : TState) (d ddate dw : Int) :
    FilterState (fireRepeat P st d ddate dw).2 = FilterState st := by
  unfold fireRepeat
  split
  · rw [resetWhen_filterState]
  · rfl

theorem fireStep_filterState (P : TParams) (st : TState) (d ddate dw : Int) :
    FilterState (fireStep P st d ddate dw).2 = FilterState st := by
  unfold fireStep
  split
  · rw [resetWhen_filterState]
    rfl
  · rw [fireRepeat_filterState]
    rfl

theorem checkAfterDay_filterState (P : TParams) (st : TState)
    (dt d ddate : Int) :
    FilterState (checkAfterDay P st dt d ddate).2 = FilterState st := by
  cases hdtw : st.dtwhen with
  | some dtw =>
    unfold checkAfterDay
    rw [hdtw]
    dsimp only
    split
    · rfl
    · rw [fireStep_filterState]
  | none =>
    unfold checkAfterDay
    rw [hdtw]
    dsimp only
    split
    · rfl
    · rw [fireStep_filterState]
      rfl

/-- A call whose date does not exceed `_curdate` never touches the
day-filter state: the masks are evaluated at most once per new date. -/
theorem check_filterState_stable (P : TParams) (st : TState) (dt2 : Int)
    (h : dateOf dt2 ≤ st.curdate) :
    FilterState (Timer.check P st dt2).2 = FilterState st := by
  by_cases hg : st.lastcall = some (dateOf dt2)
  · rw [check_guard hg]
  · unfold Timer.check
    simp only [num2date_zero]
    rw [if_neg hg]
    have he := eosStep_filterState P st dt2 (dateOf dt2)
    have hcd : ¬ (eosStep P st dt2 (dateOf dt2)).curdate < dateOf dt2 := by
      have : (eosStep P st dt2 (dateOf dt2)).curdate = st.curdate :=
        congrArg Prod.fst he
      omega
    rw [if_neg hcd]
    rw [checkAfterDay_filterState]
    exact he

/-- Date rollover when the month filter rejects: mutate only the month
mask, skip the week filter and the allow predicate. -/
theorem dayStep_eq_month_false (P : TParams) (st : TState) (ddate : Int)
    (hm : (checkMonth P st.curmonth st.monthmask ddate).1 = false) :
    dayStep P st ddate
      = (false,
          { st with
              curdate := ddate,
              curmonth := (checkMonth P st.curmonth st.monthmask ddate).2.1,
              monthmask := (checkMonth P st.curmonth st.monthmask ddate).2.2 }) := by
  unfold dayStep
  dsimp only
  rw [hm]
  simp

/-- Date rollover when the month filter passes and the week filter
rejects: mutate both masks, skip the allow predicate. -/
theorem dayStep_eq_week_false (P : TParams) (st : TState) (ddate : Int)
    (hm : (checkMonth P st.curmonth st.monthmask ddate).1 = true)
    (hw : (checkWeek P st.curweek st.weekmask ddate).1 = false) :
    dayStep P st ddate
      = (false,
          { st with
              curdate := ddate,
              curmonth := (checkMonth P st.curmonth st.monthmask ddate).2.1,
              monthmask := (checkMonth P st.curmonth st.monthmask ddate).2.2,
              curweek := (checkWeek P st.curweek st.weekmask ddate).2.1,
              weekmask := (checkWeek P st.curweek st.weekmask ddate).2.2 }) := by
  unfold dayStep
  dsimp only
  rw [hm, hw]
  simp

/-- Date rollover when both day filters pass and an allow predicate is
configured: the rollover verdict is the predicate's. -/
theorem dayStep_eq_allow (P : TParams) (st : TState) (ddate : Int)
    (f : Int → Bool) (ha : P.allow = some f)
    (hm : (checkMonth P st.curmonth st.monthmask ddate).1 = true)
    (hw : (checkWeek P st.curweek st.weekmask ddate).1 = true) :
    dayStep P st ddate
      = (f ddate,
          { st with
              curdate := ddate,
              curmonth := (checkMonth P st.curmonth st.monthmask ddate).2.1,
              monthmask := (checkMonth P st.curmonth st.monthmask ddate).2.2,
              curweek := (checkWeek P st.curweek st.weekmask ddate).2.1,
              weekmask := (checkWeek P st.curweek st.weekmask ddate).2.2 }) := by
  unfold dayStep
  dsimp only
  rw [hm, hw, ha]
  simp

/-- A call on a strictly newer date (that passes the line-158 guard) runs
the session-rollover step, then the date-rollover filters, and proceeds to
target resolution only if the filters accept; a rejected date is marked in
`_lastcall` via `_reset_when(ddate)` and the call returns false. -/
theorem check_daychange_eq (P : TParams) (st : TState) (dt : Int)
    (hg : st.lastcall ≠ some (dateOf dt)) (hday : st.curdate < dateOf dt) :
    Timer.check P st dt
      = (if (dayStep P (eosStep P st dt (dateOf dt)) (dateOf dt)).1 then
           checkAfterDay P (dayStep P (eosStep P st dt (dateOf dt)) (dateOf dt)).2
             dt dt (dateOf dt)
         else
           (false, resetWhen P (dayStep P (eosStep P st dt (dateOf dt)) (dateOf dt)).2
             (some (dateOf dt)))) := by
  unfold Timer.check
  simp only [num2date_zero]
  rw [if_neg hg]
  have hcd : (eosStep P st dt (dateOf dt)).curdate < dateOf dt := by
    have h1 : (eosStep P st dt (dateOf dt)).curdate = st.curdate :=
      congrArg Prod.fst (eosStep_filterState P st dt (dateOf dt))
    omega
  rw [if_pos hcd]
  rcases hds : dayStep P (eosStep P st dt (dateOf dt)) (dateOf dt) with ⟨b, st2⟩
  try rw [hds]
  cases b <;> dsimp only <;> simp

/-- C7: on the first call whose date exceeds `_curdate`, the evaluator
advances `_curdate` and evaluates, in order with short-circuiting, the
month-day filter, then the week-day filter, then the allow predicate; any
rejection marks `_lastcall` with the date, clears the trigger cache, and
returns false (a month rejection leaves the week state untouched, a week
rejection holds for every allow predicate), and no later call with a date
at most `_curdate` touches the day-filter state again. -/
theorem timer_c7 (P : TParams) (st : TState) (dt : Int)
    (hg : st.lastcall ≠ some (dateOf dt)) (hday : st.curdate < dateOf dt) :
    (Timer.check P st dt).2.curdate = dateOf dt ∧
    ((checkMonth P st.curmonth st.monthmask (dateOf dt)).1 = false →
      (Timer.check P st dt).1 = false ∧
      (Timer.check P st dt).2.lastcall = some (dateOf dt) ∧
      (Timer.check P st dt).2.dtwhen = none ∧
      (Timer.check P st dt).2.curmonth
        = (checkMonth P st.curmonth st.monthmask (dateOf dt)).2.1 ∧
      (Timer.check P st dt).2.monthmask
        = (checkMonth P st.curmonth st.monthmask (dateOf dt)).2.2 ∧
      (Timer.check P st dt).2.curweek = st.curweek ∧
      (Timer.check P st dt).2.weekmask = st.weekmask) ∧
    ((checkMonth P st.curmonth st.monthmask (dateOf dt)).1 = true →
      (checkWeek P st.curweek st.weekmask (dateOf dt)).1 = false →
      (Timer.check P st dt).1 = false ∧
      (Timer.check P st dt).2.lastcall = some (dateOf dt) ∧
      (Timer.check P st dt).2.dtwhen = none ∧
      (Timer.check P st dt).2.curweek
        = (checkWeek P st.curweek st.weekmask (dateOf dt)).2.1 ∧
      (Timer.check P st dt).2.weekmask
        = (checkWeek P st.curweek st.weekmask (dateOf dt)).2.2) ∧
    (∀ f, P.allow = some f →
      (checkMonth P st.curmonth st.monthmask (dateOf dt)).1 = true →
      (checkWeek P st.curweek st.weekmask (dateOf dt)).1 = true →
      f (dateOf dt) = false →
      (Timer.check P st dt).1 = false ∧
      (Timer.check P st dt).2.lastcall = some (dateOf dt) ∧
      (Timer.check P st dt).2.dtwhen = none) ∧
    (∀ dt2, dateOf dt2 ≤ dateOf dt →
      FilterState (Timer.check P (Timer.check P st dt).2 dt2).2
        = FilterState (Timer.check P st dt).2) := by
  have he := eosStep_other P st dt (dateOf dt)
  have hceq := check_daychange_eq P st dt hg hday
  have hdf := dayStep_fields P (eosStep P st dt (dateOf dt)) (dateOf dt)
  have hcur : (Timer.check P st dt).2.curdate = dateOf dt := by
    rw [hceq]
    by_cases hb : (dayStep P (eosStep P st dt (dateOf dt)) (dateOf dt)).1 = true
    · rw [if_pos hb]
      have h1 : (checkAfterDay P
            (dayStep P (eosStep P st dt (dateOf dt)) (dateOf dt)).2
            dt dt (dateOf dt)).2.curdate
          = (dayStep P (eosStep P st dt (dateOf dt)) (dateOf dt)).2.curdate :=
        congrArg Prod.fst (checkAfterDay_filterState P _ dt dt (dateOf dt))
      rw [h1, hdf.2.2.2.2.2.1]
    · rw [if_neg hb]
      exact hdf.2.2.2.2.2.1
  refine ⟨hcur, ?_, ?_, ?_, fun dt2 h2 =>
    check_filterState_stable P _ dt2 (by rw [hcur]; exact h2)⟩
  · intro hm
    have hm1 : (checkMonth P (eosStep P st dt (dateOf dt)).curmonth
        (eosStep P st dt (dateOf dt)).monthmask (dateOf dt)).1 = false := by
      rw [he.2.1, he.2.2.1]
      exact hm
    rw [hceq, dayStep_eq_month_false P _ _ hm1]
    dsimp only
    rw [if_neg (by simp : ¬ ((false : Bool) = true))]
    simp [resetWhen, he.2.1, he.2.2.1, he.2.2.2.1, he.2.2.2.2.1]
  · intro hm hw
    have hm1 : (checkMonth P (eosStep P st dt (dateOf dt)).curmonth
        (eosStep P st dt (dateOf dt)).monthmask (dateOf dt)).1 = true := by
      rw [he.2.1, he.2.2.1]
      exact hm
    have hw1 : (checkWeek P (eosStep P st dt (dateOf dt)).curweek
        (eosStep P st dt (dateOf dt)).weekmask (dateOf dt)).1 = false := by
      rw [he.2.2.2.1, he.2.2.2.2.1]
      exact hw
    rw [hceq, dayStep_eq_week_false P _ _ hm1 hw1]
    dsimp only
    rw [if_neg (by simp : ¬ ((false : Bool) = true))]
    simp [resetWhen, he.2.1, he.2.2.1, he.2.2.2.1, he.2.2.2.2.1]
  · intro f ha hm hw hf
    have hm1 : (checkMonth P (eosStep P st dt (dateOf dt)).curmonth
        (eosStep P st dt (dateOf dt)).monthmask (dateOf dt)).1 = true := by
      rw [he.2.1, he.2.2.1]
      exact hm
    have hw1 : (checkWeek P (eosStep P st dt (dateOf dt)).curweek
        (eosStep P st dt (dateOf dt)).weekmask (dateOf dt)).1 = true := by
      rw [he.2.2.2.1, he.2.2.2.2.1]
      exact hw
    rw [hceq, dayStep_eq_allow P _ _ f ha hm1 hw1]
    dsimp only
    rw [if_neg (by simp [hf] : ¬ (f (dateOf dt) = true))]
    simp [resetWhen]

/-- C7, witness: `monthdays=[20]` with carry disabled rejects 2020-01-10 on
the first call of that date — the call returns false, marks the date in
`_lastcall`, updates only the month state and leaves the week state
untouched. -/
theorem timer_c7_witness :
    (Timer.check Pc7 (Timer.start Pc7) (combine 737433 600)).2.curdate
      = dateOf (combine 737433 600) ∧
    ((Timer.check Pc7 (Timer.start Pc7) (combine 737433 600)).1 = false ∧
     (Timer.check Pc7 (Timer.start Pc7) (combine 737433 600)).2.lastcall
       = some (dateOf (combine 737433 600)) ∧
     (Timer.check Pc7 (Timer.start Pc7) (combine 737433 600)).2.dtwhen = none ∧
     (Timer.check Pc7 (Timer.start Pc7) (combine 737433 600)).2.curmonth
       = (checkMonth Pc7 (Timer.start Pc7).curmonth (Timer.start Pc7).monthmask
           (dateOf (combine 737433 600))).2.1 ∧
     (Timer.check Pc7 (Timer.start Pc7) (combine 737433 600)).2.monthmask
       = (checkMonth Pc7 (Timer.start Pc7).curmonth (Timer.start Pc7).monthmask
           (dateOf (combine 737433 600))).2.2 ∧
     (Timer.check Pc7 (Timer.start Pc7) (combine 737433 600)).2.curweek
       = (Timer.start Pc7).curweek ∧
     (Timer.check Pc7 (Timer.start Pc7) (combine 737433 600)).2.weekmask
       = (Timer.start Pc7).weekmask) := by
  have h := timer_c7 Pc7 (Timer.start Pc7) (combine 737433 600)
    (by decide) (by decide)
  exact ⟨h.1, h.2.1 (by decide)⟩

theorem eosStep_nexteos_cases (P : TParams) (st : TState) (d ddate : Int) :
    (eosStep P st d ddate).nexteos = st.nexteos ∨
    (eosStep P st d ddate).nexteos = combine ddate TIME_MAX := by
  unfold eosStep resetWhen
  split
  · right; rfl
  · left; rfl

theorem fireRepeat_nexteos (P : TParams) (st : TState) (d ddate dw : Int) :
    (fireRepeat P st d ddate dw).2.nexteos = st.nexteos := by
  unfold fireRepeat
  split
  · simp [resetWhen]
  · rfl

theorem fireStep_nexteos (P : TParams) (st : TState) (d ddate dw : Int) :
    (fireStep P st d ddate dw).2.nexteos = st.nexteos ∨
    (fireStep P st d ddate dw).2.nexteos = combine ddate TIME_MAX := by
  unfold fireStep
  split
  · left; simp [resetWhen]
  · rw [fireRepeat_nexteos]
    dsimp only
    split
    · right; rfl
    · left; rfl

theorem checkAfterDay_nexteos (P : TParams) (st : TState) (dt d ddate : Int) :
    (checkAfterDay P st dt d ddate).2.nexteos = st.nexteos ∨
    (checkAfterDay P st dt d ddate).2.nexteos = combine ddate TIME_MAX := by
  cases hdtw : st.dtwhen with
  | some dtw =>
    unfold checkAfterDay
    rw [hdtw]
    dsimp only
    split
    · left; rfl
    · exact fireStep_nexteos P st d ddate _
  | none =>
    unfold checkAfterDay
    rw [hdtw]
    dsimp only
    split
    · left; rfl
    · exact fireStep_nexteos P _ d ddate _

theorem fireRepeat_lastcall (P : TParams) (st : TState) (d ddate dw : Int) :
    (fireRepeat P st d ddate dw).2.lastcall = st.lastcall ∨
    (fireRepeat P st d ddate dw).2.lastcall = some ddate := by
  unfold fireRepeat
  split
  · right; simp [resetWhen]
  · left; rfl

theorem fireStep_lastcall (P : TParams) (st : TState) (d ddate dw : Int) :
    (fireStep P st d ddate dw).2.lastcall = st.lastcall ∨
    (fireStep P st d ddate dw).2.lastcall = some ddate := by
  unfold fireStep
  split
  · right; simp [resetWhen]
  · exact fireRepeat_lastcall P _ d ddate dw

theorem checkAfterDay_lastcall (P : TParams) (st : TState) (dt d ddate : Int) :
    (checkAfterDay P st dt d ddate).2.lastcall = st.lastcall ∨
    (checkAfterDay P st dt d ddate).2.lastcall = some ddate := by
  cases hdtw : st.dtwhen with
  | some dtw =>
    unfold checkAfterDay
    rw [hdtw]
    dsimp only
    split
    · left; rfl
    · exact fireStep_lastcall P st d ddate _
  | none =>
    unfold checkAfterDay
    rw [hdtw]
    dsimp only
    split
    · left; rfl
    · exact fireStep_lastcall P _ d ddate _

/-- A call that passes the guard but not the date-rollover condition is the
target-resolution step on the session-rolled state. -/
theorem check_nodaychange_eq (P : TParams) (st : TState) (dt : Int)
    (hg : st.lastcall ≠ some (dateOf dt)) (hday : dateOf dt ≤ st.curdate) :
    Timer.check P st dt
      = checkAfterDay P (eosStep P st dt (dateOf dt)) dt dt (dateOf dt) := by
  unfold Timer.check
  simp only [num2date_zero]
  rw [if_neg hg]
  have h1 : (eosStep P st dt (dateOf dt)).curdate = st.curdate :=
    congrArg Prod.fst (eosStep_filterState P st dt (dateOf dt))
  rw [if_neg (by omega)]

/-- On a date rollover, `_curdate` ends at the sample's date whatever the
filters decide. -/
theorem check_daychange_curdate (P : TParams) (st : TState) (dt : Int)
    (hg : st.lastcall ≠ some (dateOf dt)) (hday : st.curdate < dateOf dt) :
    (Timer.check P st dt).2.curdate = dateOf dt := by
  rw [check_daychange_eq P st dt hg hday]
  have hdf := dayStep_fields P (eosStep P st dt (dateOf dt)) (dateOf dt)
  by_cases hb : (dayStep P (eosStep P st dt (dateOf dt)) (dateOf dt)).1 = true
  · rw [if_pos hb]
    have h1 : (checkAfterDay P
          (dayStep P (eosStep P st dt (dateOf dt)) (dateOf dt)).2
          dt dt (dateOf dt)).2.curdate
        = (dayStep P (eosStep P st dt (dateOf dt)) (dateOf dt)).2.curdate :=
      congrArg Prod.fst (checkAfterDay_filterState P _ dt dt (dateOf dt))
    rw [h1, hdf.2.2.2.2.2.1]
  · rw [if_neg hb]
    exact hdf.2.2.2.2.2.1

/-- When the date rollover rejects a date, the call gives the date up:
`_reset_when(ddate)` on the filter-mutated state, returning false. -/
theorem check_daychange_false (P : TParams) (st : TState) (dt : Int)
    (hg : st.lastcall ≠ some (dateOf dt)) (hday : st.curdate < dateOf dt)
    (hds1 : (dayStep P (eosStep P st dt (dateOf dt)) (dateOf dt)).1 = false) :
    Timer.check P st dt
      = (false, resetWhen P (dayStep P (eosStep P st dt (dateOf dt)) (dateOf dt)).2
          (some (dateOf dt))) := by
  rw [check_daychange_eq P st dt hg hday, if_neg (by simp [hds1])]

/-- A configured allow predicate that vetoes a date makes the date rollover
reject it, whatever the day filters say. -/
theorem dayStep_false_of_allow (P : TParams) (st : TState) (ddate : Int)
    (f : Int → Bool) (ha : P.allow = some f) (hf : f ddate = false) :
    (dayStep P st ddate).1 = false := by
  by_cases hm : (checkMonth P st.curmonth st.monthmask ddate).1 = true
  · by_cases hw : (checkWeek P st.curweek st.weekmask ddate).1 = true
    · rw [dayStep_eq_allow P st ddate f ha hm hw]
      exact hf
    · rw [dayStep_eq_week_false P st ddate hm (by simpa using hw)]
  · rw [dayStep_eq_month_false P st ddate (by simpa using hm)]

/-- One call moves `_curdate` monotonically, to at most the sample's date,
and `_nexteos` is either kept or set to the end of the sample's date, the
latter only with `_curdate` at or past that date. -/
theorem check_cur_eos (P : TParams) (st : TState) (dt : Int) :
    st.curdate ≤ (Timer.check P st dt).2.curdate ∧
    ((Timer.check P st dt).2.curdate = st.curdate ∨
     (Timer.check P st dt).2.curdate = dateOf dt) ∧
    ((Timer.check P st dt).2.nexteos = st.nexteos ∨
     ((Timer.check P st dt).2.nexteos = combine (dateOf dt) TIME_MAX ∧
      dateOf dt ≤ (Timer.check P st dt).2.curdate)) := by
  by_cases hg : st.lastcall = some (dateOf dt)
  · rw [check_guard hg]
    exact ⟨le_refl _, Or.inl rfl, Or.inl rfl⟩
  · by_cases hday : st.curdate < dateOf dt
    · have hcd := check_daychange_curdate P st dt hg hday
      refine ⟨by omega, Or.inr hcd, ?_⟩
      rw [check_daychange_eq P st dt hg hday]
      have hdf := dayStep_fields P (eosStep P st dt (dateOf dt)) (dateOf dt)
      have heos := eosStep_nexteos_cases P st dt (dateOf dt)
      by_cases hb : (dayStep P (eosStep P st dt (dateOf dt)) (dateOf dt)).1 = true
      · rw [if_pos hb]
        rcases checkAfterDay_nexteos P
            (dayStep P (eosStep P st dt (dateOf dt)) (dateOf dt)).2
            dt dt (dateOf dt) with h | h
        · rw [h, hdf.2.2.2.2.1]
          rcases heos with he | he
          · exact Or.inl he
          · refine Or.inr ⟨he, ?_⟩
            rw [check_daychange_eq P st dt hg hday, if_pos hb] at hcd
            omega
        · refine Or.inr ⟨h, ?_⟩
          rw [check_daychange_eq P st dt hg hday, if_pos hb] at hcd
          omega
      · rw [if_neg hb]
        dsimp only
        have h2 : (resetWhen P
            (dayStep P (eosStep P st dt (dateOf dt)) (dateOf dt)).2
            (some (dateOf dt))).nexteos
            = (dayStep P (eosStep P st dt (dateOf dt)) (dateOf dt)).2.nexteos := rfl
        rw [h2, hdf.2.2.2.2.1]
        rcases heos with he | he
        · exact Or.inl he
        · refine Or.inr ⟨he, ?_⟩
          rw [check_daychange_eq P st dt hg hday, if_neg hb] at hcd
          dsimp only at hcd
          omega
    · have hstab := check_filterState_stable P st dt (by omega)
      have hcd : (Timer.check P st dt).2.curdate = st.curdate :=
        congrArg Prod.fst hstab
      refine ⟨by omega, Or.inl hcd, ?_⟩
      rw [check_nodaychange_eq P st dt hg (by omega)]
      have hc2 : (checkAfterDay P (eosStep P st dt (dateOf dt))
            dt dt (dateOf dt)).2.curdate = st.curdate := by
        have h1 : (checkAfterDay P (eosStep P st dt (dateOf dt))
              dt dt (dateOf dt)).2.curdate
            = (eosStep P st dt (dateOf dt)).curdate :=
          congrArg Prod.fst
            (checkAfterDay_filterState P (eosStep P st dt (dateOf dt))
              dt dt (dateOf dt))
        have h2 : (eosStep P st dt (dateOf dt)).curdate = st.curdate :=
          congrArg Prod.fst (eosStep_filterState P st dt (dateOf dt))
        exact h1.trans h2
      rcases checkAfterDay_nexteos P (eosStep P st dt (dateOf dt))
          dt dt (dateOf dt) with h | h
      · rw [h]
        rcases eosStep_nexteos_cases P st dt (dateOf dt) with he | he
        · exact Or.inl he
        · exact Or.inr ⟨he, by omega⟩
      · exact Or.inr ⟨h, by omega⟩

/-- One call leaves `_lastcall` alone, resets it to the sentinel, or sets
it to the sample's date — nothing else. -/
theorem check_lastcall_cases (P : TParams) (st : TState) (dt : Int) :
    (Timer.check P st dt).2.lastcall = st.lastcall ∨
    (Timer.check P st dt).2.lastcall = none ∨
    (Timer.check P st dt).2.lastcall = some (dateOf dt) := by
  by_cases hg : st.lastcall = some (dateOf dt)
  · rw [check_guard hg]
    exact Or.inl rfl
  · have hel := eosStep_lastcall P st dt (dateOf dt)
    by_cases hday : st.curdate < dateOf dt
    · rw [check_daychange_eq P st dt hg hday]
      have hdf := dayStep_fields P (eosStep P st dt (dateOf dt)) (dateOf dt)
      by_cases hb : (dayStep P (eosStep P st dt (dateOf dt)) (dateOf dt)).1 = true
      · rw [if_pos hb]
        rcases checkAfterDay_lastcall P
            (dayStep P (eosStep P st dt (dateOf dt)) (dateOf dt)).2
            dt dt (dateOf dt) with h | h
        · rw [h, hdf.2.2.2.1]
          rcases hel with he | he
          · exact Or.inl he
          · exact Or.inr (Or.inl he)
        · exact Or.inr (Or.inr h)
      · rw [if_neg hb]
        exact Or.inr (Or.inr (by simp [resetWhen]))
    · rw [check_nodaychange_eq P st dt hg (by omega)]
      rcases checkAfterDay_lastcall P (eosStep P st dt (dateOf dt))
          dt dt (dateOf dt) with h | h
      · rw [h]
        rcases hel with he | he
        · exact Or.inl he
        · exact Or.inr (Or.inl he)
      · exact Or.inr (Or.inr h)

/-- In any run from `start` with non-decreasing samples, a real date held
by `_lastcall` never exceeds the date of the latest sample. -/
theorem run_lastcall_le (P : TParams) {st : TState} {t : Int}
    (hrun : Run P st t) : ∀ a, st.lastcall = some a → a ≤ dateOf t := by
  induction hrun with
  | init =>
    intro a ha
    simp [Timer.start] at ha
  | @step st1 t1 dt1 hr hle ih =>
    intro a ha
    rcases check_lastcall_cases P st1 dt1 with h | h | h
    · rw [h] at ha
      exact le_trans (ih a ha) (dateOf_mono hle)
    · rw [h] at ha
      cases ha
    · rw [h] at ha
      injection ha with ha
      omega

/-- C5, amended: over a run from `start` with non-decreasing samples, the
real dates held by `_lastcall` never move backward (a check call may still
reset `_lastcall` to the `datetime.min` sentinel at a session rollover,
which is the counterexample to the claim as stated). -/
theorem timer_c5_amended (P : TParams) (st : TState) (t dt a b : Int)
    (hrun : Run P st t) (hle : t ≤ dt)
    (ha : st.lastcall = some a)
    (hb : (Timer.check P st dt).2.lastcall = some b) : a ≤ b := by
  rcases check_lastcall_cases P st dt with h | h | h
  · rw [h, ha] at hb
    injection hb with hb
    omega
  · rw [h] at hb
    cases hb
  · rw [h] at hb
    injection hb with hb
    have h1 := run_lastcall_le P hrun a ha
    have h2 := dateOf_mono hle
    omega

/-- C5, amended, witness: a fire on day 5 holds `_lastcall = 5`; a firing
call on day 6 moves it to 6, and the theorem yields `5 ≤ 6`. -/
theorem timer_c5_amended_witness :
    (Timer.check Pc5 (Timer.start Pc5) (combine 5 600)).2.lastcall = some 5 ∧
    (Timer.check Pc5 (Timer.check Pc5 (Timer.start Pc5) (combine 5 600)).2
        (combine 6 700)).2.lastcall = some 6 ∧
    (5 : Int) ≤ 6 :=
  ⟨by decide, by decide,
   timer_c5_amended Pc5 (Timer.check Pc5 (Timer.start Pc5) (combine 5 600)).2
     (combine 5 600) (combine 6 700) 5 6
     (Run.step Run.init (by decide)) (by decide) (by decide) (by decide)⟩

/-- Run invariant for the allow-predicate veto: samples and `_curdate` stay
nonnegative and below the latest sample's date, `_nexteos` is the start
sentinel or the end of a day not past `_curdate`, and whenever `_curdate`
sits on a vetoed date `D`, the date is marked in `_lastcall` and the cached
session end covers it. -/
theorem run_c6_inv (P : TParams) (f : Int → Bool) (D : Int)
    (ha : P.allow = some f) (hf : f D = false) (hD : 0 < D) :
    ∀ {st : TState} {t : Int}, Run P st t →
      0 ≤ t ∧ 0 ≤ st.curdate ∧ st.curdate ≤ dateOf t ∧
      (st.nexteos = 0 ∨ ∃ X, st.nexteos = combine X TIME_MAX ∧ X ≤ st.curdate) ∧
      (st.curdate = D → st.lastcall = some D ∧ combine D TIME_MAX ≤ st.nexteos) := by
  intro st t hrun
  induction hrun with
  | init =>
    refine ⟨le_refl 0, le_refl 0, by simp [Timer.start, dateOf], Or.inl rfl, ?_⟩
    intro h0
    exfalso
    simp [Timer.start] at h0
    omega
  | @step st1 t1 dt1 hr hle ih =>
    obtain ⟨ht0, hc0, hcle, hB, hC⟩ := ih
    have hdt0 : 0 ≤ dt1 := le_trans ht0 hle
    have hmono : dateOf t1 ≤ dateOf dt1 := dateOf_mono hle
    obtain ⟨hm1, hm2, hm3⟩ := check_cur_eos P st1 dt1
    refine ⟨hdt0, by omega, ?_, ?_, ?_⟩
    · rcases hm2 with h | h <;> omega
    · rcases hm3 with h | ⟨h, hdd⟩
      · rw [h]
        rcases hB with h0 | ⟨X, hX, hXc⟩
        · exact Or.inl h0
        · exact Or.inr ⟨X, hX, by omega⟩
      · exact Or.inr ⟨dateOf dt1, h, hdd⟩
    · intro hcd'
      by_cases hg : st1.lastcall = some (dateOf dt1)
      · rw [check_guard hg] at hcd' ⊢
        exact hC hcd'
      · by_cases hday : st1.curdate < dateOf dt1
        · by_cases hdD : dateOf dt1 = D
          · have hfr : (eosStep P st1 dt1 (dateOf dt1)).nexteos
                = combine (dateOf dt1) TIME_MAX := by
              unfold eosStep resetWhen
              split
              · rfl
              · exfalso
                rename_i hne
                have hb1 : combine D 0 ≤ dt1 := combine_le_of_dateOf hdD
                rcases hB with h0 | ⟨X, hX, hXc⟩
                · unfold combine at hb1
                  omega
                · unfold combine at hb1
                  unfold combine TIME_MAX at hX
                  omega
            have hds1 : (dayStep P (eosStep P st1 dt1 (dateOf dt1))
                (dateOf dt1)).1 = false :=
              dayStep_false_of_allow P _ (dateOf dt1) f ha (by rw [hdD]; exact hf)
            have hdf := dayStep_fields P (eosStep P st1 dt1 (dateOf dt1)) (dateOf dt1)
            rw [check_daychange_false P st1 dt1 hg hday hds1]
            dsimp only
            constructor
            · simp [resetWhen, hdD]
            · have h1 : (resetWhen P
                  (dayStep P (eosStep P st1 dt1 (dateOf dt1)) (dateOf dt1)).2
                  (some (dateOf dt1))).nexteos
                  = (dayStep P (eosStep P st1 dt1 (dateOf dt1)) (dateOf dt1)).2.nexteos :=
                rfl
              rw [h1, hdf.2.2.2.2.1, hfr, hdD]
          · have hcc := check_daychange_curdate P st1 dt1 hg hday
            rw [hcc] at hcd'
            exact absurd hcd' hdD
        · have hstab := check_filterState_stable P st1 dt1 (by omega)
          have hcde : (Timer.check P st1 dt1).2.curdate = st1.curdate :=
            congrArg Prod.fst hstab
          rw [hcde] at hcd'
          have hCc := hC hcd'
          have hDeq : dateOf dt1 = D := by omega
          rw [hDeq] at hg
          exact absurd hCc.1 hg

/-- C6: if the configured allow predicate vetoes a calendar date `D`, then
in any run from `start` with non-decreasing samples every call whose
timestamp falls on `D` returns false, whatever the target time, offset,
repeat, day filters and timezone. -/
theorem timer_c6 (P : TParams) (f : Int → Bool) (D : Int)
    (st : TState) (t dt : Int)
    (ha : P.allow = some f) (hf : f D = false) (hD : 0 < D)
    (hrun : Run P st t) (hle : t ≤ dt) (hdd : dateOf dt = D) :
    (Timer.check P st dt).1 = false := by
  obtain ⟨ht0, hc0, hcle, hB, hC⟩ := run_c6_inv P f D ha hf hD hrun
  by_cases hg : st.lastcall = some (dateOf dt)
  · rw [check_guard hg]
  · by_cases hday : st.curdate < dateOf dt
    · have hds1 : (dayStep P (eosStep P st dt (dateOf dt)) (dateOf dt)).1 = false :=
        dayStep_false_of_allow P _ (dateOf dt) f ha (by rw [hdd]; exact hf)
      rw [check_daychange_false P st dt hg hday hds1]
    · have hmono : dateOf t ≤ dateOf dt := dateOf_mono hle
      have h4 : st.curdate = D := by omega
      have h5 : st.lastcall = some (dateOf dt) := by
        rw [hdd]
        exact (hC h4).1
      exact absurd h5 hg

/-- C6, witness: the allow predicate vetoing day 5 forces a false result
for a sample on day 5 that would otherwise fire (9:00 target, sample at
10:00). -/
theorem timer_c6_witness :
    ((fun d => decide (d ≠ (5 : Int))) 5 = false) ∧
    dateOf (combine 5 600) = 5 ∧
    (Timer.check Pc6 (Timer.start Pc6) (combine 5 600)).1 = false :=
  ⟨by decide, by decide,
   timer_c6 Pc6 (fun d => decide (d ≠ 5)) 5 (Timer.start Pc6) 0 (combine 5 600)
     rfl (by decide) (by decide) Run.init (by decide) (by decide)⟩

theorem eosStep_eq_cases (P : TParams) (st : TState) (d ddate : Int) :
    eosStep P st d ddate = st ∨
    eosStep P st d ddate
      = resetWhen P { st with nexteos := combine ddate TIME_MAX } none := by
  unfold eosStep
  split
  · right; rfl
  · left; rfl

theorem resetWhen_invC1 (P : TParams) (D : Int) (st : TState) (lc : Option Int)
    (hne : st.nexteos ≤ combine D TIME_MAX) :
    InvC1 P D (resetWhen P st lc) := by
  refine ⟨rfl, hne, rfl, ?_⟩
  intro w hw
  cases hw

theorem c1_fireStep (P : TParams) (D : Int) (st : TState) (dt dwv : Int)
    (htz : P.tz = 0)
    (hst : st.twhen = P.rstwhen) (hne : st.nexteos ≤ combine D TIME_MAX)
    (hk : ∃ k : Nat, dwv = combine D P.rstwhen + P.offset + (k : Int) * P.rep) :
    InvC1 P D (fireStep P st dt D dwv).2 ∧
    (fireStep P st dt D dwv).2.lastwhen = some dwv := by
  unfold fireStep
  split
  · exact ⟨resetWhen_invC1 P D _ _ hne, rfl⟩
  · have hne' : (if st.nexteos < dt then combine D TIME_MAX else st.nexteos)
        ≤ combine D TIME_MAX := by
      split <;> omega
    unfold fireRepeat
    cases hloop : repeatLoop P.rep
        (if st.nexteos < dt then combine D TIME_MAX else st.nexteos) dt
        ((min (if st.nexteos < dt then combine D TIME_MAX else st.nexteos) dt
          - dwv).toNat + 1) dwv with
    | none =>
      dsimp only
      exact ⟨resetWhen_invC1 P D _ _ hne', rfl⟩
    | some w =>
      dsimp only
      obtain ⟨hw1, hw2, j, hj1, hj2⟩ := repeatLoop_some hloop
      obtain ⟨k, hkv⟩ := hk
      refine ⟨⟨hst, hne', by simp [date2num, num2date, htz], ?_⟩, rfl⟩
      intro w' hw'
      simp [date2num, num2date, htz] at hw'
      refine ⟨k + j, ?_, Or.inr ?_⟩
      · push_cast
        rw [← hw', hj2, hkv]
        ring
      · omega

theorem c1_checkAfterDay (P : TParams) (D : Int) (st : TState) (dt : Int)
    (htz : P.tz = 0) (hdd : dateOf dt = D) (hInv : InvC1 P D st) :
    InvC1 P D (checkAfterDay P st dt dt D).2 ∧
    ((checkAfterDay P st dt dt D).1 = true →
      ∃ k : Nat, (checkAfterDay P st dt dt D).2.lastwhen
          = some (combine D P.rstwhen + P.offset + (k : Int) * P.rep) ∧
        combine D P.rstwhen + P.offset + (k : Int) * P.rep
          ≤ combine D TIME_MAX) := by
  obtain ⟨hst, hne, hcpl, hdw⟩ := hInv
  have hdtE : dt ≤ combine D TIME_MAX := le_eos_of_dateOf hdd
  cases hdtw : st.dtwhen with
  | some dtw =>
    have hdwe : st.dwhen = some dtw := by rw [← hcpl]; exact hdtw
    unfold checkAfterDay
    rw [hdtw]
    dsimp only
    by_cases hlt : dt < dtw
    · rw [if_pos hlt]
      exact ⟨⟨hst, hne, hcpl, hdw⟩, by intro h; simp at h⟩
    · rw [if_neg hlt]
      simp only [hdwe, Option.getD_some]
      obtain ⟨k, hkv, hkb⟩ := hdw dtw hdwe
      have hfs := c1_fireStep P D st dt dtw htz hst hne ⟨k, hkv⟩
      refine ⟨hfs.1, fun _ => ⟨k, ?_, ?_⟩⟩
      · rw [hfs.2, hkv]
      · rcases hkb with h0 | hE
        · rw [← hkv]
          omega
        · rw [← hkv]
          exact hE
  | none =>
    have hdwe : st.dwhen = none := by rw [← hcpl]; exact hdtw
    unfold checkAfterDay
    rw [hdtw]
    dsimp only
    by_cases hlt : dt < date2num P.tz (combine D st.twhen + P.offset)
    · rw [if_pos hlt]
      refine ⟨⟨hst, hne, by simp [date2num, htz], ?_⟩, by intro h; simp at h⟩
      intro w hw
      simp only at hw
      injection hw with hw
      refine ⟨0, ?_, Or.inl rfl⟩
      rw [← hw, hst]
      push_cast
      ring
    · rw [if_neg hlt]
      have hfs := c1_fireStep P D
        { st with
            dwhen := some (combine D st.twhen + P.offset),
            dtwhen := some (date2num P.tz (combine D st.twhen + P.offset)) }
        dt (combine D st.twhen + P.offset) htz hst hne
        ⟨0, by rw [hst]; push_cast; ring⟩
      refine ⟨hfs.1, fun _ => ⟨0, ?_, ?_⟩⟩
      · rw [hfs.2, hst]
        push_cast
        ring_nf
      · unfold date2num at hlt
        rw [htz, hst] at hlt
        push_cast
        omega

theorem c1_check (P : TParams) (D : Int) (st : TState) (dt : Int)
    (htz : P.tz = 0) (hdd : dateOf dt = D) (hInv : InvC1 P D st) :
    InvC1 P D (Timer.check P st dt).2 ∧
    ((Timer.check P st dt).1 = true →
      ∃ k : Nat, (Timer.check P st dt).2.lastwhen
          = some (combine D P.rstwhen + P.offset + (k : Int) * P.rep) ∧
        combine D P.rstwhen + P.offset + (k : Int) * P.rep
          ≤ combine D TIME_MAX) := by
  subst hdd
  by_cases hg : st.lastcall = some (dateOf dt)
  · rw [check_guard hg]
    exact ⟨hInv, by intro h; simp at h⟩
  · have hInv1 : InvC1 P (dateOf dt) (eosStep P st dt (dateOf dt)) := by
      rcases eosStep_eq_cases P st dt (dateOf dt) with he | he
      · rw [he]; exact hInv
      · rw [he]
        exact resetWhen_invC1 P (dateOf dt) _ _ (le_refl _)
    by_cases hday : st.curdate < dateOf dt
    · rw [check_daychange_eq P st dt hg hday]
      have hdf := dayStep_fields P (eosStep P st dt (dateOf dt)) (dateOf dt)
      have hInv2 : InvC1 P (dateOf dt)
          (dayStep P (eosStep P st dt (dateOf dt)) (dateOf dt)).2 := by
        obtain ⟨h1, h2, h3, h4⟩ := hInv1
        refine ⟨?_, ?_, ?_, ?_⟩
        · rw [hdf.1]; exact h1
        · rw [hdf.2.2.2.2.1]; exact h2
        · rw [hdf.2.1, hdf.2.2.1]; exact h3
        · intro w hw
          rw [hdf.2.2.1] at hw
          exact h4 w hw
      by_cases hb : (dayStep P (eosStep P st dt (dateOf dt)) (dateOf dt)).1 = true
      · rw [if_pos hb]
        exact c1_checkAfterDay P (dateOf dt)
          (dayStep P (eosStep P st dt (dateOf dt)) (dateOf dt)).2 dt htz rfl hInv2
      · rw [if_neg hb]
        refine ⟨resetWhen_invC1 P (dateOf dt) _ _ hInv2.2.1, by intro h; simp at h⟩
    · rw [check_nodaychange_eq P st dt hg (by omega)]
      exact c1_checkAfterDay P (dateOf dt) (eosStep P st dt (dateOf dt)) dt htz rfl hInv1

/-- C1, amended: with a zero-UTC-offset time source and a positive repeat
interval, over any run from `start` whose samples all fall on one calendar
date `D`, every fired instant lies in the arithmetic sequence
`{target, target + r, target + 2r, ...}` (with
`target = combine(D, targetTime) + offset`) truncated to instants `≤ E`
where `E = combine(D, TIME_MAX)` is the session end — the fired set is a
subset of the sequence (instants only fire when a sample reaches them), an
instant equal to `E` can fire, and no instant beyond `E` ever fires. -/
theorem timer_c1_amended (P : TParams) (D : Int) (ts : List Int)
    (_hrep : 0 < P.rep) (htz : P.tz = 0) (hD : 0 ≤ D)
    (hts : ∀ t ∈ ts, dateOf t = D) :
    ∀ w ∈ firedInstants P (Timer.start P) ts,
      (∃ k : Nat, w = combine D P.rstwhen + P.offset + (k : Int) * P.rep) ∧
      w ≤ combine D TIME_MAX := by
  have hbase : InvC1 P D (Timer.start P) := by
    refine ⟨rfl, ?_, rfl, ?_⟩
    · unfold Timer.start combine TIME_MAX
      dsimp only
      omega
    · intro w hw
      cases hw
  revert hbase
  generalize Timer.start P = st
  induction ts generalizing st with
  | nil =>
    intro _ w hw
    simp [firedInstants] at hw
  | cons a l ih =>
    intro hInv w hw
    have hda : dateOf a = D := hts a (by simp)
    have hstep := c1_check P D st a htz hda hInv
    rw [firedInstants] at hw
    rcases hca : Timer.check P st a with ⟨b, st'⟩
    rw [hca] at hw
    dsimp only at hw
    rw [List.mem_append] at hw
    rcases hw with hw | hw
    · cases b with
      | false => simp at hw
      | true =>
        obtain ⟨k, hk1, hk2⟩ := hstep.2 (by rw [hca])
        rw [hca] at hk1
        dsimp only at hk1
        simp only [if_true, List.mem_singleton] at hw
        rw [hw, hk1]
        exact ⟨⟨k, by simp⟩, by simpa using hk2⟩
    · have hInv' : InvC1 P D st' := by
        have := hstep.1
        rw [hca] at this
        exact this
      exact ih (fun t ht => hts t (by simp [ht])) st' hInv' w hw

/-- C1, amended, witness: the counterexample run itself satisfies the
amended bound — both fired instants are `target + k·899` and at most the
session end. -/
theorem timer_c1_amended_witness :
    (∀ t ∈ [combine 737000 540, combine 737000 1439], dateOf t = 737000) ∧
    (∀ w ∈ firedInstants Pc1 (Timer.start Pc1)
        [combine 737000 540, combine 737000 1439],
      (∃ k : Nat, w = combine 737000 Pc1.rstwhen + Pc1.offset + (k : Int) * Pc1.rep) ∧
      w ≤ combine 737000 TIME_MAX) :=
  ⟨by decide,
   timer_c1_amended Pc1 737000 [combine 737000 540, combine 737000 1439]
     (by decide) rfl (by decide) (by decide)⟩
